import Mathlib
set_option maxRecDepth 100000

/-!
Verification of the seximal (base-6) numeric wrapper library.

The Rust sources are shallowly embedded as follows.

Machine integers are modelled as `Int` or `Nat` with explicit wrap-around
(`% 2 ^ w` style) where the release build wraps; a separate checked variant
models the debug build, in which an overflowing operation aborts.  A Rust
function returning `Result<T, String>` is modelled as `RRes`, with a third
constructor for an abort (an `expect` call on `None`, or an arithmetic
side condition failing in a debug build).

Rust `String` is modelled as Lean `String` (a list of characters); where the
source takes the byte length of the input (`input.len()`), the model uses the
UTF-8 byte size, and where it collects `Vec<char>`, the character list.
-/

/-- Result of a fallible Rust function: `Ok`, `Err(msg)`, or an abort of the
whole process (`expect` on `None`; in a debug build also any overflowing
arithmetic operation). -/
inductive RRes (α : Type) where
  | ok (v : α)
  | err (msg : String)
  | panicked
deriving DecidableEq, Repr

/-- Two-complement wrap-around of an `i8` arithmetic result, as in a release
build: the representative of `z` in `[-128, 127]`. -/
def wrap8 (z : ℤ) : ℤ := (z + 128) % 256 - 128

/-- `a - b` on Rust `usize` in a release build: wraps modulo `2 ^ 64`
(callers only use `b ≤ 1`). -/
def usizeSub (a b : ℕ) : ℕ := (a + 2 ^ 64 - b) % 2 ^ 64

/-- `num::pow::checked_pow(6, e)` elaborated at type `i16` (the type forced by
the comparison against `i8::MAX as i16` in `Si12::from`): `none` exactly when
`6 ^ e` overflows `i16`, which happens exactly for `e ≥ 6` (see
`checkedPow6I16_none_iff`). -/
def checkedPow6I16 (e : ℕ) : Option ℤ := if e < 6 then some (6 ^ e) else none

/-- `num::pow::checked_pow(6, e)` at the integer-literal fallback type `i32`
(the type inferred in the unsigned `from` functions, whose result is matched
against `Some(_)` and discarded): `none` exactly when `6 ^ e` overflows `i32`,
which happens exactly for `e ≥ 12` (see `checkedPow6I32_none_iff`). -/
def checkedPow6I32 (e : ℕ) : Option ℤ := if e < 12 then some (6 ^ e) else none



/-- The character `(z as u8 + b'0') as char` where `z` is held in `i8`:
the cast to `u8` takes the two-complement representative, the `u8` addition
wraps, and every `u8` is a valid `char`. -/
def i8DigitChar (z : ℤ) : Char := Char.ofNat (((z % 256).toNat + 48) % 256)

/-- The character `(n as u8 + b'0') as char` where `n` is held in an unsigned
type (`u8`/`u128` truncation, wrapping `u8` addition). -/
def u8DigitChar (n : ℕ) : Char := Char.ofNat ((n % 256 + 48) % 256)

/-- The digit-accumulation loop of `Si12::from` (src/src/si12.rs), walking the
character vector right to left, with `i8` arithmetic wrapping as in a release
build.  The list argument is the digit portion of the input reversed, so the
head is the rightmost character; `multiplier` is advanced by `*= 6` only while
characters remain, exactly as in the source loop. -/
def si12AccumWrap : List Char → ℤ → ℤ → RRes ℤ
  | [], value, _ => .ok value
  | c :: rest, value, multiplier =>
    if c > '5' ∨ c < '0' then .err ("Input must be a seximal integer.")
    else
      let value := wrap8 (value + wrap8 (((c.toNat : ℤ) - 48) * multiplier))
      match rest with
      | [] => .ok value
      | _ :: _ => si12AccumWrap rest value (wrap8 (multiplier * 6))

/-- The same loop in a debug build: an `i8` multiplication or addition whose
mathematical result leaves `[-128, 127]` aborts. -/
def si12AccumChk : List Char → ℤ → ℤ → RRes ℤ
  | [], value, _ => .ok value
  | c :: rest, value, multiplier =>
    if c > '5' ∨ c < '0' then .err ("Input must be a seximal integer.")
    else
      let prod := ((c.toNat : ℤ) - 48) * multiplier
      if prod < -128 ∨ 127 < prod then .panicked
      else if value + prod < -128 ∨ 127 < value + prod then .panicked
      else
        match rest with
        | [] => .ok (value + prod)
        | _ :: _ =>
          if multiplier * 6 < -128 ∨ 127 < multiplier * 6 then .panicked
          else si12AccumChk rest (value + prod) (multiplier * 6)

/-- `Si12::from` of src/src/si12.rs (release build).  The pre-check is
`checked_pow(6, input.len() - 1 - first_pos).expect("overflow") > i8::MAX as i16`:
`expect` aborts when `checked_pow` returns `None`; the `usize` subtractions
wrap, so the empty input reaches `checked_pow` with a huge exponent and aborts
in the `expect`. -/
def si12_from (input : String) : RRes ℤ :=
  let first_pos : ℕ := if input.toList.take 1 = ['-'] then 1 else 0
  match checkedPow6I16 (usizeSub (usizeSub input.utf8ByteSize 1) first_pos) with
  | none => .panicked
  | some p =>
    if 127 < p then .err ("overflow")
    else
      match si12AccumWrap ((input.toList.drop first_pos).reverse) 0 1 with
      | .ok value => .ok (if first_pos = 1 then wrap8 (-value) else value)
      | .err e => .err e
      | .panicked => .panicked

/-- `Si12::from` in a debug build: the `usize` subtractions in the exponent
abort on underflow, and the accumulation loop is the checked one. -/
def si12_fromChk (input : String) : RRes ℤ :=
  let n := input.utf8ByteSize
  let first_pos : ℕ := if input.toList.take 1 = ['-'] then 1 else 0
  if n < 1 + first_pos then .panicked
  else
    match checkedPow6I16 (n - 1 - first_pos) with
    | none => .panicked
    | some p =>
      if 127 < p then .err ("overflow")
      else
        match si12AccumChk ((input.toList.drop first_pos).reverse) 0 1 with
        | .ok value => .ok (if first_pos = 1 then -value else value)
        | .err e => .err e
        | .panicked => .panicked

/-- The digit loop of `impl fmt::Display for Si12`: starting from the (already
sign-handled) value `dv`, repeatedly insert the remainder digit at the fixed
index while `dv >= 6`, then insert the final quotient digit.  Because every
character is inserted at the same index, the emitted list is most significant
first.  A negative `dv` (which reaches this loop only as the wrapped negation
of `-128`) skips the loop and is cast to `u8` in the final insert.
The first argument is fuel, so that the definition reduces structurally: the
quotient shrinks at every step, so any fuel above `log 6 dv` suffices and the
fuel-exhausted clause is unreachable from `si12_fmt` (see
`si12FmtLoop_fuel_irrelevant`). -/
def si12FmtLoop : ℕ → ℤ → List Char
  | 0, dv => [i8DigitChar dv]
  | fuel + 1, dv =>
    if 6 ≤ dv then si12FmtLoop fuel (dv / 6) ++ [i8DigitChar (dv % 6)]
    else [i8DigitChar dv]


/-- `impl fmt::Display for Si12` (release build): `dec_value *= -1` wraps, so
`-128` stays `-128`, skips the digit loop, and is emitted as the single
character `(128 + 48) as char`. -/
def si12_fmt (v : ℤ) : String :=
  let dv := if v < 0 then wrap8 (-v) else v
  ⟨(if v < 0 then ['-'] else []) ++ si12FmtLoop (dv.toNat + 1) dv⟩

/-- `impl fmt::Display for Si12` in a debug build: the only operation that can
abort is `dec_value *= -1`, which overflows `i8` exactly for `-128`. -/
def si12_fmtChk (v : ℤ) : Option String :=
  if v < 0 then
    if 127 < -v then none
    else some ⟨'-' :: si12FmtLoop ((-v).toNat + 1) (-v)⟩
  else some ⟨si12FmtLoop (v.toNat + 1) v⟩

/-- The digit loop of `impl fmt::Display for Su332` (src/src/su332.rs), on the
`u128` value: identical repeated division by 6, most significant digit emitted
first.  Fuel-structured like `si12FmtLoop`; any fuel above `log 6 dv`
suffices. -/
def su332FmtLoop : ℕ → ℕ → List Char
  | 0, dv => [u8DigitChar dv]
  | fuel + 1, dv =>
    if 6 ≤ dv then su332FmtLoop fuel (dv / 6) ++ [u8DigitChar (dv % 6)]
    else [u8DigitChar dv]


/-- `impl fmt::Display for Su332`. -/
def su332_fmt (v : ℕ) : String := ⟨su332FmtLoop (v + 1) v⟩

/-- The digit characters `'0'`..`'5'` (and `'6'` when an index 6 arises in a
specification-side rule). -/
def digitChar (d : ℕ) : Char := Char.ofNat (48 + d)

/-- Claim-side digit list, following the words of the specification: the
base-6 digits of `n` obtained by repeated division by 6, each remainder digit
prepended until the quotient is 0.  Fuel-structured; `n + 1` always
suffices. -/
def specDigits6 : ℕ → ℕ → List Char
  | 0, n => [digitChar n]
  | fuel + 1, n =>
    if 6 ≤ n then specDigits6 fuel (n / 6) ++ [digitChar (n % 6)]
    else [digitChar n]

/-- Claim-side `formatInteger`, from the words of the specification: `"0"` for
zero, otherwise the base-6 digits of the absolute value with a leading `-`
exactly when the value is negative. -/
def specFormatInteger (v : ℤ) : String :=
  if v = 0 then "0"
  else ⟨(if v < 0 then ['-'] else []) ++ specDigits6 v.natAbs v.natAbs⟩

/-- The digit-accumulation loop of `Su12::from`
(src/src/unsigned_integer_types/su12.rs), right to left, with `u8` arithmetic
wrapping as in a release build. -/
def su12AccumWrap : List Char → ℕ → ℕ → RRes ℕ
  | [], value, _ => .ok value
  | c :: rest, value, multiplier =>
    if c > '5' ∨ c < '0' then .err ("Input must be a seximal whole number.")
    else
      let value := (value + ((c.toNat - 48) * multiplier) % 256) % 256
      match rest with
      | [] => .ok value
      | _ :: _ => su12AccumWrap rest value (multiplier * 6 % 256)

/-- The same loop in a debug build: a `u8` multiplication or addition whose
result exceeds 255 aborts. -/
def su12AccumChk : List Char → ℕ → ℕ → RRes ℕ
  | [], value, _ => .ok value
  | c :: rest, value, multiplier =>
    if c > '5' ∨ c < '0' then .err ("Input must be a seximal whole number.")
    else
      let prod := (c.toNat - 48) * multiplier
      if 255 < prod then .panicked
      else if 255 < value + prod then .panicked
      else
        match rest with
        | [] => .ok (value + prod)
        | _ :: _ =>
          if 255 < multiplier * 6 then .panicked
          else su12AccumChk rest (value + prod) (multiplier * 6)

/-- `Su12::from` (release build).  The pre-check
`match checked_pow(6, input.len() - 1)` is elaborated at the integer-literal
fallback type `i32`, because its result is discarded by the `Some(_)` pattern:
it rejects only inputs of 13 or more digits, regardless of the `u8` target. -/
def su12_from (input : String) : RRes ℕ :=
  match checkedPow6I32 (usizeSub input.utf8ByteSize 1) with
  | none => .err ("overflow")
  | some _ => su12AccumWrap input.toList.reverse 0 1

/-- `Su12::from` in a debug build. -/
def su12_fromChk (input : String) : RRes ℕ :=
  if input.utf8ByteSize < 1 then .panicked
  else
    match checkedPow6I32 (input.utf8ByteSize - 1) with
    | none => .err ("overflow")
    | some _ => su12AccumChk input.toList.reverse 0 1

/-!
Float codec (src/src/floating_point_types/).  The `f64`/`f32` values used by
`Sf144::from`, the two `Display` implementations and `FractDigit` are modelled
as exact rationals: every native float value is a rational, and each float
operation of the source is modelled by the corresponding exact rational
operation.  At the specific inputs evaluated in the claim theorems below
every float operation of the source is exact, so the model agrees with IEEE
semantics there.
-/

/-- Digit-accumulation loop shared by the whole-number and fractional parts of
`Sf144::from`: right to left with a float multiplier advanced by `*= 6.0`,
digits checked against `'0'`..`'5'` before use. -/
def sf144Accum : List Char → ℚ → RRes ℚ
  | [], _ => .ok 0
  | c :: rest, multiplier =>
    if c > '5' ∨ c < '0' then .err ("Input must be a seximal real number.")
    else
      match sf144Accum rest (multiplier * 6) with
      | .ok v => .ok (((c.toNat : ℚ) - 48) * multiplier + v)
      | r => r

/-- `Sf144::from`: split on `'.'` (error if more than two parts), accumulate
the whole part after the optional sign, accumulate the fractional part and
scale it by `6.0.powi(-(len))`, then apply the sign. -/
def sf144_from (input : String) : RRes ℚ :=
  let first_pos : ℕ := if input.toList.take 1 = ['-'] then 1 else 0
  let parts := input.splitOn "."
  if 2 < parts.length then .err ("Input must be a seximal real number.")
  else
    match sf144Accum (((parts.headD "").toList.drop first_pos).reverse) 1 with
    | .ok int_value =>
      match parts with
      | [_, fracPart] =>
        match sf144Accum fracPart.toList.reverse 1 with
        | .ok fractional_value =>
          let value :=
            int_value + fractional_value * (6 : ℚ) ^ (-(fracPart.toList.length : ℤ))
          .ok (if first_pos = 1 then -value else value)
        | r => r
      | _ => .ok (if first_pos = 1 then -int_value else int_value)
    | r => r

/-- The digit kinds of `floating_point_types::util::FractDigit`: an exact
match which terminates the expansion, or a best-so-far digit which lets it
continue. -/
inductive FractDigit where
  | exact (c : Char)
  | cont (c : Char)
deriving DecidableEq, Repr

/-- The upward walk of `FractDigit::get_next_fract_digit` (the `loop` block):
starting at digit 4, increment while `digit/6 < fraction`, break at 5, return
early on `digit == fraction` (only possible for `fraction ≥ 1`), otherwise
step back one digit and break.  `inl` is the early `Exact` return; `inr` the
digit after the loop.  The first argument is fuel: for `fraction < 1` the loop
body runs at most twice, so the fuel-exhausted clause is unreachable from
`getNextFractDigit` (for `fraction ≥ 43` the source loop itself would wrap
`u8` and never terminate). -/
def nextUpWalk : ℕ → ℕ → ℚ → ℕ ⊕ ℕ
  | 0, digit, _ => .inr digit
  | fuel + 1, digit, f =>
    if (digit : ℚ) / 6 < f then nextUpWalk fuel (digit + 1) f
    else if digit = 5 then .inr digit
    else if (digit : ℚ) = f then .inl digit
    else .inr (digit - 1)

/-- The downward walk of `FractDigit::get_next_fract_digit`
(`while digit > 0`): decrement while `digit/6 > fraction`, return early on
`digit == fraction`, otherwise break.  Structural on the digit. -/
def nextDownWalk : ℕ → ℚ → ℕ ⊕ ℕ
  | 0, _ => .inr 0
  | digit + 1, f =>
    if ((digit + 1 : ℕ) : ℚ) / 6 > f then nextDownWalk digit f
    else if ((digit + 1 : ℕ) : ℚ) = f then .inl (digit + 1)
    else .inr (digit + 1)

/-- `FractDigit::get_next_fract_digit`: start at the midpoint digit 3 and walk
up or down; equality with `3/6` is an immediate `Exact`. -/
def getNextFractDigit (f : ℚ) : FractDigit :=
  if (3 : ℚ) / 6 < f then
    match nextUpWalk 8 4 f with
    | .inl d => .exact (digitChar d)
    | .inr d => .cont (digitChar d)
  else if (3 : ℚ) / 6 > f then
    match nextDownWalk 2 f with
    | .inl d => .exact (digitChar d)
    | .inr d => .cont (digitChar d)
  else .exact (digitChar 3)

/-- The upward walk of `FractDigit::get_last_fract_digit`
(`while digit < 5`), tracking `previous`: `inl` is the early return on
`digit == fraction` (unreachable for `fraction < 1`), `inr` the pair
`(previous, digit)` at loop exit.  Fuel-structured like `nextUpWalk`; the walk
runs at most twice from its call site. -/
def lastUpWalk : ℕ → ℕ → ℕ → ℚ → ℕ ⊕ (ℕ × ℕ)
  | 0, previous, digit, _ => .inr (previous, digit)
  | fuel + 1, previous, digit, f =>
    if digit < 5 then
      if (digit : ℚ) / 6 < f then lastUpWalk fuel digit (digit + 1) f
      else if (digit : ℚ) = f then .inl digit
      else .inr (previous, digit)
    else .inr (previous, digit)

/-- The downward walk of `FractDigit::get_last_fract_digit`
(`while digit > 0`), tracking `previous`.  Structural on the digit. -/
def lastDownWalk : ℕ → ℕ → ℚ → ℕ ⊕ (ℕ × ℕ)
  | previous, 0, _ => .inr (previous, 0)
  | previous, digit + 1, f =>
    if ((digit + 1 : ℕ) : ℚ) / 6 > f then lastDownWalk (digit + 1) digit f
    else if ((digit + 1 : ℕ) : ℚ) = f then .inl (digit + 1)
    else .inr (previous, digit + 1)

/-- `FractDigit::get_last_fract_digit`: walk from the midpoint digit, then
pick `previous` when it is strictly closer to the fraction, or on an exact
tie when `previous` is even; otherwise keep `digit`. -/
def getLastFractDigit (f : ℚ) : Char :=
  if (3 : ℚ) / 6 < f then
    match lastUpWalk 8 3 4 f with
    | .inl d => digitChar d
    | .inr pd =>
      digitChar
        (if f - (pd.1 : ℚ) / 6 < (pd.2 : ℚ) / 6 - f ∨
            (f - (pd.1 : ℚ) / 6 = (pd.2 : ℚ) / 6 - f ∧ pd.1 % 2 = 0)
         then pd.1 else pd.2)
  else if (3 : ℚ) / 6 > f then
    match lastDownWalk 3 2 f with
    | .inl d => digitChar d
    | .inr pd =>
      digitChar
        (if (pd.1 : ℚ) / 6 - f < f - (pd.2 : ℚ) / 6 ∨
            ((pd.1 : ℚ) / 6 - f = f - (pd.2 : ℚ) / 6 ∧ pd.1 % 2 = 0)
         then pd.1 else pd.2)
  else digitChar 3

/-- `u128::MAX as f64` (and `as f32`): the nearest float to `2 ^ 128 - 1` is
exactly `2 ^ 128`. -/
def u128MaxF : ℚ := 2 ^ 128

/-- `dec as u128` on a float known to be at most `u128MaxF`: truncation toward
zero, saturating at `u128::MAX`. -/
def f64AsU128 (q : ℚ) : ℕ := min (⌊q⌋.toNat) (2 ^ 128 - 1)

/-- `fract_part as u8` on a float in `[0, 6)`: truncation toward zero,
saturating at 255. -/
def f64AsU8 (q : ℚ) : ℕ := min (⌊q⌋.toNat) 255

/-- The magnitude-reduction loop shared by both float `Display`
implementations: `while dec_value > u128::MAX as fXX { dec_value /= 6.0;
s.insert(index, '0') }`.  Returns the number of `'0'` markers and the reduced
value.  Fuel-structured; each step divides by 6, so any fuel at least
`log 6 q` suffices and `shrinkFuel` below always does. -/
def su332Shrink : ℕ → ℚ → ℕ × ℚ
  | 0, q => (0, q)
  | fuel + 1, q =>
    if u128MaxF < q then
      let p := su332Shrink fuel (q / 6)
      (p.1 + 1, p.2)
    else (0, q)

/-- Fuel for `su332Shrink`: the numerator bounds `log 6` of any rational. -/
def shrinkFuel (q : ℚ) : ℕ := q.num.natAbs

/-- The radix-point condition of `impl fmt::Display for Sf144`
(src/src/floating_point_types/sf144.rs line 183):
`s.len() < 19 || negative && s.len() < 20`. -/
def sf144_pointCond (negative : Bool) (len : ℕ) : Bool :=
  len < 19 ∨ (negative ∧ len < 20)

/-- The fractional output-length budget of `impl fmt::Display for Sf144`
(line 188): digits are emitted while `s.len() < if negative { 21 } else
{ 20 }`. -/
def sf144_totalBudget (negative : Bool) : ℕ := if negative then 21 else 20

/-- The radix-point condition of `impl fmt::Display for Sf52`
(src/src/floating_point_types/sf52.rs line 179): the same
`s.len() < 19 || negative && s.len() < 20`. -/
def sf52_pointCond (negative : Bool) (len : ℕ) : Bool :=
  len < 19 ∨ (negative ∧ len < 20)

/-- The fractional output-length budget of `impl fmt::Display for Sf52`
(line 184): digits are emitted while `s.len() < if negative { 21 } else
{ 20 }`. -/
def sf52_totalBudget (negative : Bool) : ℕ := if negative then 21 else 20

/-- The fractional-digit loop of `impl fmt::Display for Sf144`: while the
length budget allows, push the rounding digit when the length is exactly 19,
otherwise push the walk digit, breaking immediately after an `Exact` digit;
after every non-breaking push, advance `fract_part` by `*= 6.0` followed by
`.fract()`.  Fuel-structured: each iteration pushes one character and the
budget is at most 21, so fuel 25 is never exhausted from `sf144_fmt`. -/
def sf144_fractLoop : ℕ → Bool → ℚ → List Char → List Char
  | 0, _, _, s => s
  | fuel + 1, negative, fract, s =>
    if s.length < sf144_totalBudget negative then
      if s.length = 19 then
        sf144_fractLoop fuel negative (Int.fract (fract * 6)) (s ++ [getLastFractDigit fract])
      else
        match getNextFractDigit fract with
        | .exact c => s ++ [c]
        | .cont c => sf144_fractLoop fuel negative (Int.fract (fract * 6)) (s ++ [c])
    else s

/-- `impl fmt::Display for Sf144`: zero short-circuits to `"0"`; otherwise
take the absolute value (float negation is exact), reduce magnitudes beyond
`u128` range, format the integer part with the `Su332` digit loop, append the
radix point under `sf144_pointCond`, and run the fractional loop on
`dec_value.fract()`. -/
def sf144_fmt (v : ℚ) : String :=
  if v = 0 then "0"
  else
    let negative := decide (v < 0)
    let dec0 := if v < 0 then -v else v
    let p := su332Shrink (shrinkFuel dec0) dec0
    let intDigits :=
      su332FmtLoop (f64AsU128 p.2 + 1) (f64AsU128 p.2) ++ List.replicate p.1 '0'
    let s0 := (if v < 0 then ['-'] else []) ++ intDigits
    let s1 := if sf144_pointCond negative s0.length then s0 ++ ['.'] else s0
    ⟨sf144_fractLoop 25 negative (Int.fract p.2) s1⟩

/-- The fractional-digit loop of `impl fmt::Display for Sf52`
(src/src/floating_point_types/sf52.rs): while the length budget allows and
`fract_part` is nonzero, advance `fract_part *= 6.0`, push the truncated
digit, and keep `fract_part.fract()`.  Fuel-structured like
`sf144_fractLoop`. -/
def sf52_fractLoop : ℕ → Bool → ℚ → List Char → List Char
  | 0, _, _, s => s
  | fuel + 1, negative, fract, s =>
    if s.length < sf52_totalBudget negative then
      if fract = 0 then s
      else
        sf52_fractLoop fuel negative (Int.fract (fract * 6))
          (s ++ [u8DigitChar (f64AsU8 (fract * 6))])
    else s

/-- `impl fmt::Display for Sf52`, identical in structure to `sf144_fmt` up to
the fractional loop (the magnitude-reduction loop is textually repeated in the
source; the model shares `su332Shrink`, and `u128::MAX as f32` is the same
rational `2 ^ 128`). -/
def sf52_fmt (v : ℚ) : String :=
  if v = 0 then "0"
  else
    let negative := decide (v < 0)
    let dec0 := if v < 0 then -v else v
    let p := su332Shrink (shrinkFuel dec0) dec0
    let intDigits :=
      su332FmtLoop (f64AsU128 p.2 + 1) (f64AsU128 p.2) ++ List.replicate p.1 '0'
    let s0 := (if v < 0 then ['-'] else []) ++ intDigits
    let s1 := if sf52_pointCond negative s0.length then s0 ++ ['.'] else s0
    ⟨sf52_fractLoop 25 negative (Int.fract p.2) s1⟩

/-- An `f64` (or `f32`) value as far as comparisons are concerned: NaN, or a
finite value modelled exactly.  Every IEEE comparison involving NaN is false.
(Infinities, which compare like ordered extremes, behave like `fin` values for
the NaN theorems and are not needed separately.) -/
inductive FVal where
  | nan
  | fin (q : ℚ)

/-- IEEE `>` on the comparison model. -/
def fGt : FVal → FVal → Bool
  | .fin a, .fin b => decide (b < a)
  | _, _ => false

/-- IEEE `<` on the comparison model. -/
def fLt : FVal → FVal → Bool
  | .fin a, .fin b => decide (a < b)
  | _, _ => false

/-- IEEE `==` on the comparison model. -/
def fEqb : FVal → FVal → Bool
  | .fin a, .fin b => decide (a = b)
  | _, _ => false

/-- `impl Ord for Sf144`: `Greater` when `self.value > other.value`, `Less`
when `self.value < other.value`, otherwise `Equal`. -/
def sf144_cmp (a b : FVal) : Ordering :=
  if fGt a b then .gt else if fLt a b then .lt else .eq

/-- `impl Ord for Sf52`: textually the same two strict comparisons. -/
def sf52_cmp (a b : FVal) : Ordering :=
  if fGt a b then .gt else if fLt a b then .lt else .eq

/-- Claim-side rounding rule for the last fractional digit, from the words of
the claim: with `d` and `d + 1` the digits bracketing the remaining fraction
(`d = ⌊6 f⌋`), emit whichever of the two is numerically closer, comparing
`d/6` and `(d+1)/6` with the fraction, and on an exact tie emit the even
one. -/
def specLastDigitRule (f : ℚ) : ℤ :=
  if f - ((⌊6 * f⌋ : ℤ) : ℚ) / 6 < (((⌊6 * f⌋ : ℤ) : ℚ) + 1) / 6 - f then ⌊6 * f⌋
  else if (((⌊6 * f⌋ : ℤ) : ℚ) + 1) / 6 - f < f - ((⌊6 * f⌋ : ℤ) : ℚ) / 6 then ⌊6 * f⌋ + 1
  else if ⌊6 * f⌋ % 2 = 0 then ⌊6 * f⌋ else ⌊6 * f⌋ + 1

/-!
Justification lemmas for the embedding, and the claim theorems.
-/

theorem checkedPow6I16_none_iff (e : ℕ) :
    checkedPow6I16 e = none ↔ 32767 < (6 : ℤ) ^ e := by
  unfold checkedPow6I16
  constructor
  · intro h
    by_cases he : e < 6
    · simp [he] at h
    · have h6 : (6 : ℤ) ^ 6 ≤ 6 ^ e := by
        exact pow_le_pow_right₀ (by norm_num) (by omega)
      calc (32767 : ℤ) < 6 ^ 6 := by norm_num
        _ ≤ 6 ^ e := h6
  · intro h
    by_cases he : e < 6
    · exfalso
      have : (6 : ℤ) ^ e ≤ 6 ^ 5 := pow_le_pow_right₀ (by norm_num) (by omega)
      have : (6 : ℤ) ^ e ≤ 7776 := by calc (6:ℤ)^e ≤ 6^5 := this
                                          _ = 7776 := by norm_num
      omega
    · simp [he]

theorem checkedPow6I32_none_iff (e : ℕ) :
    checkedPow6I32 e = none ↔ 2147483647 < (6 : ℤ) ^ e := by
  unfold checkedPow6I32
  constructor
  · intro h
    by_cases he : e < 12
    · simp [he] at h
    · have h6 : (6 : ℤ) ^ 12 ≤ 6 ^ e := by
        exact pow_le_pow_right₀ (by norm_num) (by omega)
      calc (2147483647 : ℤ) < 6 ^ 12 := by norm_num
        _ ≤ 6 ^ e := h6
  · intro h
    by_cases he : e < 12
    · exfalso
      have : (6 : ℤ) ^ e ≤ 6 ^ 11 := pow_le_pow_right₀ (by norm_num) (by omega)
      have : (6 : ℤ) ^ e ≤ 362797056 := by calc (6:ℤ)^e ≤ 6^11 := this
                                               _ = 362797056 := by norm_num
      omega
    · simp [he]

theorem si12FmtLoop_fuel_irrelevant (fuel fuel₂ : ℕ) (dv : ℤ)
    (h : dv.toNat ≤ fuel) (h₂ : dv.toNat ≤ fuel₂) :
    si12FmtLoop fuel dv = si12FmtLoop fuel₂ dv := by
  induction fuel using Nat.strong_induction_on generalizing dv fuel₂ with
  | _ fuel ih =>
    match fuel, fuel₂ with
    | 0, 0 => rfl
    | 0, f₂ + 1 =>
      have : ¬ 6 ≤ dv := by omega
      simp [si12FmtLoop, this]
    | f + 1, 0 =>
      have : ¬ 6 ≤ dv := by omega
      simp [si12FmtLoop, this]
    | f + 1, f₂ + 1 =>
      by_cases h6 : 6 ≤ dv
      · simp only [si12FmtLoop, if_pos h6]
        rw [ih f (by omega) f₂ (dv / 6) (by omega) (by omega)]
      · simp [si12FmtLoop, h6]

theorem su332FmtLoop_fuel_irrelevant (fuel fuel₂ dv : ℕ)
    (h : dv ≤ fuel) (h₂ : dv ≤ fuel₂) :
    su332FmtLoop fuel dv = su332FmtLoop fuel₂ dv := by
  induction fuel using Nat.strong_induction_on generalizing dv fuel₂ with
  | _ fuel ih =>
    match fuel, fuel₂ with
    | 0, 0 => rfl
    | 0, f₂ + 1 =>
      have : ¬ 6 ≤ dv := by omega
      simp [su332FmtLoop, this]
    | f + 1, 0 =>
      have : ¬ 6 ≤ dv := by omega
      simp [su332FmtLoop, this]
    | f + 1, f₂ + 1 =>
      by_cases h6 : 6 ≤ dv
      · simp only [su332FmtLoop, if_pos h6]
        rw [ih f (by omega) f₂ (dv / 6) (by omega) (by omega)]
      · simp [su332FmtLoop, h6]

/-- Claim C1: parsing the string produced by formatting is claimed to return
the original value for every representable value, including the minimum of
each signed type.  The round trip does hold for every `i8` value except the
minimum: formatting `-128` wraps in `dec_value *= -1` (aborting in a debug
build), emits the non-digit byte 176, and the result does not parse back. -/
theorem c1_integer_roundtrip_min_bug :
    (∀ v ∈ Finset.Icc (-127 : ℤ) 127, si12_from (si12_fmt v) = .ok v) ∧
    si12_from (si12_fmt (-128)) = .err ("Input must be a seximal integer.") ∧
    si12_from (si12_fmt (-128)) ≠ .ok (-128) ∧
    si12_fmtChk (-128) = none := by
  refine ⟨by with_unfolding_all decide, by with_unfolding_all decide,
    by with_unfolding_all decide, by with_unfolding_all decide⟩

/-- Claim C2: formatting emits `"0"` for zero and otherwise the base-6 digits
of the absolute value with a `-` sign exactly for negatives.  This holds for
every `i8` value except `-128` (and for `Su332`, whose loop is the claimed
algorithm verbatim): at `-128` the claimed output is `"-332"` but the wrapped
negation emits the byte 176 instead of the digits of 128. -/
theorem c2_format_digits_min_bug :
    si12_fmt 0 = "0" ∧ su332_fmt 0 = "0" ∧
    si12_fmt 13 = "21" ∧ si12_fmt (-36) = "-100" ∧
    (∀ v ∈ Finset.Icc (-127 : ℤ) 127, si12_fmt v = specFormatInteger v) ∧
    specFormatInteger (-128) = "-332" ∧
    si12_fmt (-128) ≠ specFormatInteger (-128) := by
  refine ⟨by with_unfolding_all decide, by with_unfolding_all decide,
    by with_unfolding_all decide, by with_unfolding_all decide,
    by with_unfolding_all decide, by with_unfolding_all decide,
    by with_unfolding_all decide⟩

/-- Claim C3: the overflow pre-check is claimed to make the accumulation
overflow-free, but it only bounds `6 ^ (digits - 1)`, not the accumulated
value.  `"344"` (value 136) passes the `Si12` pre-check (`6 ^ 2 = 36 ≤ 127`),
yet the `i8` accumulation overflows: in a debug build it aborts, in a release
build it wraps to `Ok(-120)`. -/
theorem c3_accumulation_overflow :
    checkedPow6I16 2 = some 36 ∧ ¬ (127 : ℤ) < 36 ∧
    (3 * 36 + 4 * 6 + 4 : ℤ) = 136 ∧ (127 : ℤ) < 136 ∧
    si12_fromChk "344" = .panicked ∧
    si12_from "344" = .ok (-120) := by
  refine ⟨by with_unfolding_all decide, by with_unfolding_all decide,
    by with_unfolding_all decide, by with_unfolding_all decide,
    by with_unfolding_all decide, by with_unfolding_all decide⟩

/-- Claim C4: the pre-check is claimed to fail with an overflow error exactly
when `6 ^ (digits - 1)` exceeds the width's maximum and never to under-reject.
In `Su12::from` the `checked_pow` result is discarded, so the check runs at
the inference-fallback type `i32`: `"100000"` has `6 ^ 5 = 7776 > 255` and by
the claim must be rejected, yet it passes the pre-check and overflows the
`u8` accumulation (debug: abort; release: `Ok(96)`). -/
theorem c4_precheck_underrejects :
    (255 : ℕ) < 6 ^ 5 ∧
    su12_from "100000" ≠ .err ("overflow") ∧
    su12_from "100000" = .ok 96 ∧
    su12_fromChk "100000" = .panicked := by
  refine ⟨by with_unfolding_all decide, by with_unfolding_all decide,
    by with_unfolding_all decide, by with_unfolding_all decide⟩

/-- Claim C5: formatting is claimed total and non-failing for every value
including the most negative of each signed type.  It is total on `i8` except
at `-128`, where the debug build aborts in `dec_value *= -1`. -/
theorem c5_format_not_total_at_min :
    si12_fmtChk (-128) = none ∧
    si12_fmtChk (-127) = some "-331" ∧ si12_fmtChk 127 = some "331" ∧
    (∀ v ∈ Finset.Icc (-127 : ℤ) 127, (si12_fmtChk v).isSome = true) := by
  refine ⟨by with_unfolding_all decide, by with_unfolding_all decide,
    by with_unfolding_all decide, by with_unfolding_all decide⟩

/-- Claim C6: every input outside the grammar is claimed to produce a typed
`Err` without panicking or returning a best-effort value.  The empty string is
outside the grammar, yet `Sf144::from("")` returns `Ok(0.0)` (likewise `"-"`
and `"."`), and `Si12::from("")` aborts inside `.expect("overflow")` after the
wrapped `usize` subtraction.  Genuinely malformed digits do produce `Err`. -/
theorem c6_invalid_input_bug :
    sf144_from "" = .ok 0 ∧
    sf144_from "-" = .ok 0 ∧
    sf144_from "." = .ok 0 ∧
    si12_from "" = .panicked ∧
    si12_fromChk "" = .panicked ∧
    sf144_from "9" = .err ("Input must be a seximal real number.") ∧
    sf144_from "2.3.4" = .err ("Input must be a seximal real number.") := by
  refine ⟨by with_unfolding_all decide, by with_unfolding_all decide,
    by with_unfolding_all decide, by with_unfolding_all decide,
    by with_unfolding_all decide, by with_unfolding_all decide,
    by with_unfolding_all decide⟩

/-- Claim C7: exact float conversions for values whose base-6 expansion
terminates within the digit budget: `2.5 ↔ "2.3"`, `-6.25 ↔ "-10.13"`, and
`0.0` formats as `"0"`.  In the exact-rational model of the float code all
five equalities hold (at these inputs every float operation of the source is
exact, so the model agrees with IEEE evaluation). -/
theorem c7_float_exact_values :
    sf144_fmt (5 / 2) = "2.3" ∧
    sf144_from "2.3" = .ok (5 / 2) ∧
    sf144_fmt (-(25 / 4)) = "-10.13" ∧
    sf144_from "-10.13" = .ok (-(25 / 4)) ∧
    sf144_fmt 0 = "0" := by
  refine ⟨by with_unfolding_all decide, by with_unfolding_all decide,
    by with_unfolding_all decide, by with_unfolding_all decide,
    by with_unfolding_all decide⟩

/-- Claim C10: because `cmp` is defined by the two strict native comparisons
only, and every IEEE comparison involving NaN is false, comparing NaN with any
value returns `Equal` for both float wrappers, even though NaN is not equal to
anything under native `==`. -/
theorem c10_nan_cmp_equal :
    (∀ x : FVal, sf144_cmp .nan x = .eq) ∧
    (∀ x : FVal, sf52_cmp .nan x = .eq) ∧
    (∀ x : FVal, fEqb .nan x = false) := by
  refine ⟨fun x => ?_, fun x => ?_, fun x => ?_⟩ <;> cases x <;> rfl

/-- The fractional loop of `Sf144` never extends the string beyond its length
budget: the output length is bounded by the larger of the starting length and
the budget. -/
theorem sf144_fractLoop_length_le :
    ∀ (fuel : ℕ) (negative : Bool) (fract : ℚ) (s : List Char),
      (sf144_fractLoop fuel negative fract s).length ≤
        max s.length (sf144_totalBudget negative) := by
  intro fuel
  induction fuel with
  | zero =>
    intro neg f s
    simp only [sf144_fractLoop]
    exact le_max_left _ _
  | succ n ih =>
    intro neg f s
    simp only [sf144_fractLoop]
    by_cases hb : s.length < sf144_totalBudget neg
    · rw [if_pos hb]
      by_cases h19 : s.length = 19
      · rw [if_pos h19]
        refine le_trans (ih neg _ _) ?_
        have h1 : (s ++ [getLastFractDigit f]).length = s.length + 1 := by simp
        rw [h1, max_eq_right hb]
        exact le_max_right _ _
      · rw [if_neg h19]
        cases hgd : getNextFractDigit f with
        | exact c =>
          simp only [hgd]
          have h1 : (s ++ [c]).length = s.length + 1 := by simp
          rw [h1]
          exact le_trans hb (le_max_right _ _)
        | cont c =>
          simp only [hgd]
          refine le_trans (ih neg _ _) ?_
          have h1 : (s ++ [c]).length = s.length + 1 := by simp
          rw [h1, max_eq_right hb]
          exact le_max_right _ _
    · rw [if_neg hb]
      exact le_max_left _ _

/-- The fractional loop of `Sf52` obeys the same length budget. -/
theorem sf52_fractLoop_length_le :
    ∀ (fuel : ℕ) (negative : Bool) (fract : ℚ) (s : List Char),
      (sf52_fractLoop fuel negative fract s).length ≤
        max s.length (sf52_totalBudget negative) := by
  intro fuel
  induction fuel with
  | zero =>
    intro neg f s
    simp only [sf52_fractLoop]
    exact le_max_left _ _
  | succ n ih =>
    intro neg f s
    simp only [sf52_fractLoop]
    by_cases hb : s.length < sf52_totalBudget neg
    · rw [if_pos hb]
      by_cases h0 : f = 0
      · rw [if_pos h0]
        exact le_max_left _ _
      · rw [if_neg h0]
        refine le_trans (ih neg _ _) ?_
        have h1 : (s ++ [u8DigitChar (f64AsU8 (f * 6))]).length = s.length + 1 := by simp
        rw [h1, max_eq_right hb]
        exact le_max_right _ _
    · rw [if_neg hb]
      exact le_max_left _ _

/-- Claim C9 (counterexample): the narrower float type is claimed to allow
fewer output digits than the wider one, but both `Display` implementations
use the identical budget constants; at the value `2 ^ (-20)`, whose base-6
expansion does not terminate within the budget, both emit a string of the
same full length 20. -/
theorem c9_counterexample_not_fewer :
    (sf52_fmt (1 / 2 ^ 20)).length = 20 ∧
    (sf144_fmt (1 / 2 ^ 20)).length = 20 ∧
    ¬ (sf52_fmt (1 / 2 ^ 20)).length < (sf144_fmt (1 / 2 ^ 20)).length ∧
    sf52_totalBudget false = sf144_totalBudget false ∧
    sf52_totalBudget true = sf144_totalBudget true := by
  refine ⟨by with_unfolding_all decide, by with_unfolding_all decide,
    by with_unfolding_all decide, rfl, rfl⟩

/-- Claim C9 (amended): both float types use the same output-length budget:
the radix point is appended while the length is under 19 (20 when negative),
fractional digits are emitted while the total length is under 20 (21 when
negative), the fractional loops of both types respect that common budget, and
both reach the full length 20 at `2 ^ (-20)`. -/
theorem c9_amended_equal_budgets :
    sf52_totalBudget = sf144_totalBudget ∧
    sf52_pointCond = sf144_pointCond ∧
    sf144_totalBudget false = 20 ∧ sf144_totalBudget true = 21 ∧
    (∀ negative len, sf144_pointCond negative len =
      decide (len < if negative then 20 else 19)) ∧
    (∀ (negative : Bool) (fract : ℚ) (s : List Char),
      (sf144_fractLoop 25 negative fract s).length ≤
        max s.length (sf144_totalBudget negative)) ∧
    (∀ (negative : Bool) (fract : ℚ) (s : List Char),
      (sf52_fractLoop 25 negative fract s).length ≤
        max s.length (sf52_totalBudget negative)) ∧
    (sf144_fmt (1 / 2 ^ 20)).length = 20 ∧
    (sf52_fmt (1 / 2 ^ 20)).length = 20 := by
  refine ⟨rfl, rfl, rfl, rfl, ?_, sf144_fractLoop_length_le 25, sf52_fractLoop_length_le 25,
    by with_unfolding_all decide, by with_unfolding_all decide⟩
  intro negative len
  cases negative with
  | false =>
    simp only [sf144_pointCond]
    by_cases h : len < 19 <;> simp [h]
  | true =>
    simp only [sf144_pointCond]
    by_cases h19 : len < 19
    · simp [h19]; omega
    · by_cases h20 : len < 20 <;> simp [h19, h20]

/-- For a fraction above `4/6`, the upward walk of the last-digit search stops
with `previous = 4, digit = 5`. -/
theorem lastUpWalk_high (f : ℚ) (h : 2 / 3 < f) : lastUpWalk 8 3 4 f = .inr (4, 5) := by
  have h4 : ((4 : ℕ) : ℚ) / 6 < f := by push_cast; linarith
  simp only [lastUpWalk, if_pos (show (4 : ℕ) < 5 by norm_num), if_pos h4,
    if_neg (show ¬ (5 : ℕ) < 5 by norm_num)]

/-- For a fraction in `(1/2, 2/3]`, the upward walk stops immediately with
`previous = 3, digit = 4`. -/
theorem lastUpWalk_mid (f : ℚ) (h23 : f ≤ 2 / 3) : lastUpWalk 8 3 4 f = .inr (3, 4) := by
  have h4 : ¬ ((4 : ℕ) : ℚ) / 6 < f := by push_cast; exact not_lt.mpr (by linarith)
  have hne : ¬ ((4 : ℕ) : ℚ) = f := by
    push_cast
    intro he
    rw [← he] at h23
    norm_num at h23
  simp only [lastUpWalk, if_pos (show (4 : ℕ) < 5 by norm_num), if_neg h4, if_neg hne]

/-- For a fraction in `[1/3, 1/2)`, the downward walk stops immediately with
`previous = 3, digit = 2`. -/
theorem lastDownWalk_high (f : ℚ) (h1 : 1 / 3 ≤ f) (h2 : f < 1 / 2) :
    lastDownWalk 3 2 f = .inr (3, 2) := by
  have e2 : ¬ ((1 + 1 : ℕ) : ℚ) / 6 > f := by push_cast; exact not_lt.mpr (by linarith)
  have e2b : ¬ ((1 + 1 : ℕ) : ℚ) = f := by
    push_cast
    intro he
    rw [← he] at h2
    norm_num at h2
  simp only [lastDownWalk, if_neg e2, if_neg e2b]

/-- For a fraction in `[1/6, 1/3)`, the downward walk stops with
`previous = 2, digit = 1`. -/
theorem lastDownWalk_mid (f : ℚ) (h1 : 1 / 6 ≤ f) (h2 : f < 1 / 3) :
    lastDownWalk 3 2 f = .inr (2, 1) := by
  have e2 : ((1 + 1 : ℕ) : ℚ) / 6 > f := by push_cast; linarith
  have e1 : ¬ ((0 + 1 : ℕ) : ℚ) / 6 > f := by push_cast; exact not_lt.mpr (by linarith)
  have e1b : ¬ ((0 + 1 : ℕ) : ℚ) = f := by
    push_cast
    intro he
    rw [← he] at h2
    norm_num at h2
  simp only [lastDownWalk, if_pos e2, if_neg e1, if_neg e1b]

/-- For a fraction below `1/6`, the downward walk runs to digit 0 with
`previous = 1`. -/
theorem lastDownWalk_low (f : ℚ) (h : f < 1 / 6) : lastDownWalk 3 2 f = .inr (1, 0) := by
  have e2 : ((1 + 1 : ℕ) : ℚ) / 6 > f := by push_cast; linarith
  have e1 : ((0 + 1 : ℕ) : ℚ) / 6 > f := by push_cast; linarith
  simp only [lastDownWalk, if_pos e2, if_pos e1]

/-- Claim C8 (amended): on every fraction in `[0, 1)` the emitted last digit
is the claimed nearest-bracketing-digit rule with ties to even, capped at the
largest base-6 digit 5: the code emits `min (rule) 5`, so for fractions above
`11/12` (where the rule selects 6) the digit 5 is emitted instead. -/
theorem c8_rounding_rule_capped (f : ℚ) (h0 : 0 ≤ f) (h1 : f < 1) :
    getLastFractDigit f = digitChar (min (specLastDigitRule f).toNat 5) := by
  rcases lt_trichotomy ((3 : ℚ) / 6) f with h3 | h3 | h3
  · rcases le_or_lt f (2 / 3) with h23 | h23
    · have ew := lastUpWalk_mid f h23
      rcases lt_trichotomy f (7 / 12) with hc | hc | hc
      · -- f ∈ (1/2, 7/12): both sides pick 3
        have hcond : f - ((3 : ℕ) : ℚ) / 6 < ((4 : ℕ) : ℚ) / 6 - f ∨
            (f - ((3 : ℕ) : ℚ) / 6 = ((4 : ℕ) : ℚ) / 6 - f ∧ (3 : ℕ) % 2 = 0) :=
          Or.inl (by push_cast; linarith)
        have hd : ⌊6 * f⌋ = (3 : ℤ) :=
          Int.floor_eq_iff.mpr ⟨by push_cast; linarith, by push_cast; linarith⟩
        have hr : f - ((3 : ℤ) : ℚ) / 6 < (((3 : ℤ) : ℚ) + 1) / 6 - f := by
          push_cast; linarith
        simp only [getLastFractDigit, and_true, if_pos h3, ew, if_pos hcond,
          specLastDigitRule, hd, if_pos hr]
        decide
      · -- f = 7/12: tie between 3 and 4, both sides pick the even 4
        have hcond : ¬ (f - ((3 : ℕ) : ℚ) / 6 < ((4 : ℕ) : ℚ) / 6 - f ∨
            (f - ((3 : ℕ) : ℚ) / 6 = ((4 : ℕ) : ℚ) / 6 - f ∧ (3 : ℕ) % 2 = 0)) := by
          push_cast
          rintro (hlt | ⟨-, hev⟩)
          · linarith
          · norm_num at hev
        have hd : ⌊6 * f⌋ = (3 : ℤ) :=
          Int.floor_eq_iff.mpr ⟨by push_cast; linarith, by push_cast; linarith⟩
        have hr1 : ¬ f - ((3 : ℤ) : ℚ) / 6 < (((3 : ℤ) : ℚ) + 1) / 6 - f := by
          push_cast; exact not_lt.mpr (by linarith)
        have hr2 : ¬ (((3 : ℤ) : ℚ) + 1) / 6 - f < f - ((3 : ℤ) : ℚ) / 6 := by
          push_cast; exact not_lt.mpr (by linarith)
        simp only [getLastFractDigit, and_true, if_pos h3, ew, if_neg hcond,
          specLastDigitRule, hd, if_neg hr1, if_neg hr2,
          if_neg (show ¬ (3 : ℤ) % 2 = 0 by decide)]
        decide
      · -- f ∈ (7/12, 2/3]: code picks 4
        have hcond : ¬ (f - ((3 : ℕ) : ℚ) / 6 < ((4 : ℕ) : ℚ) / 6 - f ∨
            (f - ((3 : ℕ) : ℚ) / 6 = ((4 : ℕ) : ℚ) / 6 - f ∧ (3 : ℕ) % 2 = 0)) := by
          push_cast
          rintro (hlt | ⟨heq, -⟩) <;> linarith
        rcases lt_or_eq_of_le h23 with h23l | h23e
        · -- f < 2/3: rule has d = 3, picks 4
          have hd : ⌊6 * f⌋ = (3 : ℤ) :=
            Int.floor_eq_iff.mpr ⟨by push_cast; linarith, by push_cast; linarith⟩
          have hr1 : ¬ f - ((3 : ℤ) : ℚ) / 6 < (((3 : ℤ) : ℚ) + 1) / 6 - f := by
            push_cast; exact not_lt.mpr (by linarith)
          have hr2 : (((3 : ℤ) : ℚ) + 1) / 6 - f < f - ((3 : ℤ) : ℚ) / 6 := by
            push_cast; linarith
          simp only [getLastFractDigit, and_true, if_pos h3, ew, if_neg hcond,
            specLastDigitRule, hd, if_neg hr1, if_pos hr2]
          decide
        · -- f = 2/3: rule has d = 4 exactly, picks 4
          have hd : ⌊6 * f⌋ = (4 : ℤ) :=
            Int.floor_eq_iff.mpr ⟨by push_cast; linarith, by push_cast; linarith⟩
          have hr : f - ((4 : ℤ) : ℚ) / 6 < (((4 : ℤ) : ℚ) + 1) / 6 - f := by
            push_cast; linarith
          simp only [getLastFractDigit, and_true, if_pos h3, ew, if_neg hcond,
            specLastDigitRule, hd, if_pos hr]
          decide
    · have ew := lastUpWalk_high f h23
      rcases lt_trichotomy f (3 / 4) with hc | hc | hc
      · -- f ∈ (2/3, 3/4): both sides pick 4
        have hcond : f - ((4 : ℕ) : ℚ) / 6 < ((5 : ℕ) : ℚ) / 6 - f ∨
            f - ((4 : ℕ) : ℚ) / 6 = ((5 : ℕ) : ℚ) / 6 - f :=
          Or.inl (by push_cast; linarith)
        have hd : ⌊6 * f⌋ = (4 : ℤ) :=
          Int.floor_eq_iff.mpr ⟨by push_cast; linarith, by push_cast; linarith⟩
        have hr : f - ((4 : ℤ) : ℚ) / 6 < (((4 : ℤ) : ℚ) + 1) / 6 - f := by
          push_cast; linarith
        simp only [getLastFractDigit, and_true, if_pos h3, ew, if_pos hcond,
          specLastDigitRule, hd, if_pos hr]
        decide
      · -- f = 3/4: tie between 4 and 5, both sides pick the even 4
        have hcond : f - ((4 : ℕ) : ℚ) / 6 < ((5 : ℕ) : ℚ) / 6 - f ∨
            f - ((4 : ℕ) : ℚ) / 6 = ((5 : ℕ) : ℚ) / 6 - f :=
          Or.inr (by push_cast; linarith)
        have hd : ⌊6 * f⌋ = (4 : ℤ) :=
          Int.floor_eq_iff.mpr ⟨by push_cast; linarith, by push_cast; linarith⟩
        have hr1 : ¬ f - ((4 : ℤ) : ℚ) / 6 < (((4 : ℤ) : ℚ) + 1) / 6 - f := by
          push_cast; exact not_lt.mpr (by linarith)
        have hr2 : ¬ (((4 : ℤ) : ℚ) + 1) / 6 - f < f - ((4 : ℤ) : ℚ) / 6 := by
          push_cast; exact not_lt.mpr (by linarith)
        simp only [getLastFractDigit, and_true, if_pos h3, ew, if_pos hcond,
          specLastDigitRule, hd, if_neg hr1, if_neg hr2,
          if_pos (show (4 : ℤ) % 2 = 0 by decide)]
        decide
      · -- f ∈ (3/4, 1): code picks 5
        have hcond : ¬ (f - ((4 : ℕ) : ℚ) / 6 < ((5 : ℕ) : ℚ) / 6 - f ∨
            f - ((4 : ℕ) : ℚ) / 6 = ((5 : ℕ) : ℚ) / 6 - f) := by
          push_cast
          rintro (hlt | heq) <;> linarith
        rcases lt_trichotomy f (5 / 6) with hc2 | hc2 | hc2
        · -- f ∈ (3/4, 5/6): rule has d = 4, picks 5
          have hd : ⌊6 * f⌋ = (4 : ℤ) :=
            Int.floor_eq_iff.mpr ⟨by push_cast; linarith, by push_cast; linarith⟩
          have hr1 : ¬ f - ((4 : ℤ) : ℚ) / 6 < (((4 : ℤ) : ℚ) + 1) / 6 - f := by
            push_cast; exact not_lt.mpr (by linarith)
          have hr2 : (((4 : ℤ) : ℚ) + 1) / 6 - f < f - ((4 : ℤ) : ℚ) / 6 := by
            push_cast; linarith
          simp only [getLastFractDigit, and_true, if_pos h3, ew, if_neg hcond,
            specLastDigitRule, hd, if_neg hr1, if_pos hr2]
          decide
        · -- f = 5/6: rule has d = 5 exactly, picks 5
          have hd : ⌊6 * f⌋ = (5 : ℤ) :=
            Int.floor_eq_iff.mpr ⟨by push_cast; linarith, by push_cast; linarith⟩
          have hr : f - ((5 : ℤ) : ℚ) / 6 < (((5 : ℤ) : ℚ) + 1) / 6 - f := by
            push_cast; linarith
          simp only [getLastFractDigit, and_true, if_pos h3, ew, if_neg hcond,
            specLastDigitRule, hd, if_pos hr]
          decide
        · -- f ∈ (5/6, 1): rule has d = 5
          rcases lt_trichotomy f (11 / 12) with hc3 | hc3 | hc3
          · -- f ∈ (5/6, 11/12): rule picks 5
            have hd : ⌊6 * f⌋ = (5 : ℤ) :=
              Int.floor_eq_iff.mpr ⟨by push_cast; linarith, by push_cast; linarith⟩
            have hr : f - ((5 : ℤ) : ℚ) / 6 < (((5 : ℤ) : ℚ) + 1) / 6 - f := by
              push_cast; linarith
            simp only [getLastFractDigit, and_true, if_pos h3, ew, if_neg hcond,
              specLastDigitRule, hd, if_pos hr]
            decide
          · -- f = 11/12: tie between 5 and 6, rule picks 6, capped to 5
            have hd : ⌊6 * f⌋ = (5 : ℤ) :=
              Int.floor_eq_iff.mpr ⟨by push_cast; linarith, by push_cast; linarith⟩
            have hr1 : ¬ f - ((5 : ℤ) : ℚ) / 6 < (((5 : ℤ) : ℚ) + 1) / 6 - f := by
              push_cast; exact not_lt.mpr (by linarith)
            have hr2 : ¬ (((5 : ℤ) : ℚ) + 1) / 6 - f < f - ((5 : ℤ) : ℚ) / 6 := by
              push_cast; exact not_lt.mpr (by linarith)
            simp only [getLastFractDigit, and_true, if_pos h3, ew, if_neg hcond,
              specLastDigitRule, hd, if_neg hr1, if_neg hr2,
              if_neg (show ¬ (5 : ℤ) % 2 = 0 by decide)]
            decide
          · -- f ∈ (11/12, 1): rule picks 6, capped to 5
            have hd : ⌊6 * f⌋ = (5 : ℤ) :=
              Int.floor_eq_iff.mpr ⟨by push_cast; linarith, by push_cast; linarith⟩
            have hr1 : ¬ f - ((5 : ℤ) : ℚ) / 6 < (((5 : ℤ) : ℚ) + 1) / 6 - f := by
              push_cast; exact not_lt.mpr (by linarith)
            have hr2 : (((5 : ℤ) : ℚ) + 1) / 6 - f < f - ((5 : ℤ) : ℚ) / 6 := by
              push_cast; linarith
            simp only [getLastFractDigit, and_true, if_pos h3, ew, if_neg hcond,
              specLastDigitRule, hd, if_neg hr1, if_pos hr2]
            decide
  · rw [← h3] at h0 h1 ⊢
    with_unfolding_all decide
  · rcases lt_or_le f (1 / 6) with hl | hl
    · have ew := lastDownWalk_low f hl
      have hne3 : ¬ (3 : ℚ) / 6 < f := by linarith
      rcases lt_trichotomy f (1 / 12) with hc | hc | hc
      · -- f ∈ [0, 1/12): both sides pick 0
        have hcond : ¬ (((1 : ℕ) : ℚ) / 6 - f < f - ((0 : ℕ) : ℚ) / 6 ∨
            (((1 : ℕ) : ℚ) / 6 - f = f - ((0 : ℕ) : ℚ) / 6 ∧ (1 : ℕ) % 2 = 0)) := by
          push_cast
          rintro (hlt | ⟨-, hev⟩)
          · linarith
          · norm_num at hev
        have hd : ⌊6 * f⌋ = (0 : ℤ) :=
          Int.floor_eq_iff.mpr ⟨by push_cast; linarith, by push_cast; linarith⟩
        have hr : f - ((0 : ℤ) : ℚ) / 6 < (((0 : ℤ) : ℚ) + 1) / 6 - f := by
          push_cast; linarith
        simp only [getLastFractDigit, and_true, if_neg hne3, if_pos h3, ew, if_neg hcond,
          specLastDigitRule, hd, if_pos hr]
        decide
      · -- f = 1/12: tie between 0 and 1, both sides pick the even 0
        have hcond : ¬ (((1 : ℕ) : ℚ) / 6 - f < f - ((0 : ℕ) : ℚ) / 6 ∨
            (((1 : ℕ) : ℚ) / 6 - f = f - ((0 : ℕ) : ℚ) / 6 ∧ (1 : ℕ) % 2 = 0)) := by
          push_cast
          rintro (hlt | ⟨-, hev⟩)
          · linarith
          · norm_num at hev
        have hd : ⌊6 * f⌋ = (0 : ℤ) :=
          Int.floor_eq_iff.mpr ⟨by push_cast; linarith, by push_cast; linarith⟩
        have hr1 : ¬ f - ((0 : ℤ) : ℚ) / 6 < (((0 : ℤ) : ℚ) + 1) / 6 - f := by
          push_cast; exact not_lt.mpr (by linarith)
        have hr2 : ¬ (((0 : ℤ) : ℚ) + 1) / 6 - f < f - ((0 : ℤ) : ℚ) / 6 := by
          push_cast; exact not_lt.mpr (by linarith)
        simp only [getLastFractDigit, and_true, if_neg hne3, if_pos h3, ew, if_neg hcond,
          specLastDigitRule, hd, if_neg hr1, if_neg hr2,
          if_pos (show (0 : ℤ) % 2 = 0 by decide)]
        decide
      · -- f ∈ (1/12, 1/6): both sides pick 1
        have hcond : ((1 : ℕ) : ℚ) / 6 - f < f - ((0 : ℕ) : ℚ) / 6 ∨
            (((1 : ℕ) : ℚ) / 6 - f = f - ((0 : ℕ) : ℚ) / 6 ∧ (1 : ℕ) % 2 = 0) :=
          Or.inl (by push_cast; linarith)
        have hd : ⌊6 * f⌋ = (0 : ℤ) :=
          Int.floor_eq_iff.mpr ⟨by push_cast; linarith, by push_cast; linarith⟩
        have hr1 : ¬ f - ((0 : ℤ) : ℚ) / 6 < (((0 : ℤ) : ℚ) + 1) / 6 - f := by
          push_cast; exact not_lt.mpr (by linarith)
        have hr2 : (((0 : ℤ) : ℚ) + 1) / 6 - f < f - ((0 : ℤ) : ℚ) / 6 := by
          push_cast; linarith
        simp only [getLastFractDigit, and_true, if_neg hne3, if_pos h3, ew, if_pos hcond,
          specLastDigitRule, hd, if_neg hr1, if_pos hr2]
        decide
    · have hne3 : ¬ (3 : ℚ) / 6 < f := by linarith
      rcases lt_or_le f (1 / 3) with hm | hm
      · have ew := lastDownWalk_mid f hl hm
        rcases lt_trichotomy f (1 / 4) with hc | hc | hc
        · -- f ∈ [1/6, 1/4): both sides pick 1
          have hcond : ¬ (((2 : ℕ) : ℚ) / 6 - f < f - ((1 : ℕ) : ℚ) / 6 ∨
              ((2 : ℕ) : ℚ) / 6 - f = f - ((1 : ℕ) : ℚ) / 6) := by
            push_cast
            rintro (hlt | heq) <;> linarith
          have hd : ⌊6 * f⌋ = (1 : ℤ) :=
            Int.floor_eq_iff.mpr ⟨by push_cast; linarith, by push_cast; linarith⟩
          have hr : f - ((1 : ℤ) : ℚ) / 6 < (((1 : ℤ) : ℚ) + 1) / 6 - f := by
            push_cast; linarith
          simp only [getLastFractDigit, and_true, if_neg hne3, if_pos h3, ew, if_neg hcond,
            specLastDigitRule, hd, if_pos hr]
          decide
        · -- f = 1/4: tie between 1 and 2, both sides pick the even 2
          have hcond : ((2 : ℕ) : ℚ) / 6 - f < f - ((1 : ℕ) : ℚ) / 6 ∨
              ((2 : ℕ) : ℚ) / 6 - f = f - ((1 : ℕ) : ℚ) / 6 :=
            Or.inr (by push_cast; linarith)
          have hd : ⌊6 * f⌋ = (1 : ℤ) :=
            Int.floor_eq_iff.mpr ⟨by push_cast; linarith, by push_cast; linarith⟩
          have hr1 : ¬ f - ((1 : ℤ) : ℚ) / 6 < (((1 : ℤ) : ℚ) + 1) / 6 - f := by
            push_cast; exact not_lt.mpr (by linarith)
          have hr2 : ¬ (((1 : ℤ) : ℚ) + 1) / 6 - f < f - ((1 : ℤ) : ℚ) / 6 := by
            push_cast; exact not_lt.mpr (by linarith)
          simp only [getLastFractDigit, and_true, if_neg hne3, if_pos h3, ew, if_pos hcond,
            specLastDigitRule, hd, if_neg hr1, if_neg hr2,
            if_neg (show ¬ (1 : ℤ) % 2 = 0 by decide)]
          decide
        · -- f ∈ (1/4, 1/3): both sides pick 2
          have hcond : ((2 : ℕ) : ℚ) / 6 - f < f - ((1 : ℕ) : ℚ) / 6 ∨
              ((2 : ℕ) : ℚ) / 6 - f = f - ((1 : ℕ) : ℚ) / 6 :=
            Or.inl (by push_cast; linarith)
          have hd : ⌊6 * f⌋ = (1 : ℤ) :=
            Int.floor_eq_iff.mpr ⟨by push_cast; linarith, by push_cast; linarith⟩
          have hr1 : ¬ f - ((1 : ℤ) : ℚ) / 6 < (((1 : ℤ) : ℚ) + 1) / 6 - f := by
            push_cast; exact not_lt.mpr (by linarith)
          have hr2 : (((1 : ℤ) : ℚ) + 1) / 6 - f < f - ((1 : ℤ) : ℚ) / 6 := by
            push_cast; linarith
          simp only [getLastFractDigit, and_true, if_neg hne3, if_pos h3, ew, if_pos hcond,
            specLastDigitRule, hd, if_neg hr1, if_pos hr2]
          decide
      · have ew := lastDownWalk_high f hm (by linarith)
        rcases lt_trichotomy f (5 / 12) with hc | hc | hc
        · -- f ∈ [1/3, 5/12): both sides pick 2
          have hcond : ¬ (((3 : ℕ) : ℚ) / 6 - f < f - ((2 : ℕ) : ℚ) / 6 ∨
              (((3 : ℕ) : ℚ) / 6 - f = f - ((2 : ℕ) : ℚ) / 6 ∧ (3 : ℕ) % 2 = 0)) := by
            push_cast
            rintro (hlt | ⟨-, hev⟩)
            · linarith
            · norm_num at hev
          have hd : ⌊6 * f⌋ = (2 : ℤ) :=
            Int.floor_eq_iff.mpr ⟨by push_cast; linarith, by push_cast; linarith⟩
          have hr : f - ((2 : ℤ) : ℚ) / 6 < (((2 : ℤ) : ℚ) + 1) / 6 - f := by
            push_cast; linarith
          simp only [getLastFractDigit, and_true, if_neg hne3, if_pos h3, ew, if_neg hcond,
            specLastDigitRule, hd, if_pos hr]
          decide
        · -- f = 5/12: tie between 2 and 3, both sides pick the even 2
          have hcond : ¬ (((3 : ℕ) : ℚ) / 6 - f < f - ((2 : ℕ) : ℚ) / 6 ∨
              (((3 : ℕ) : ℚ) / 6 - f = f - ((2 : ℕ) : ℚ) / 6 ∧ (3 : ℕ) % 2 = 0)) := by
            push_cast
            rintro (hlt | ⟨-, hev⟩)
            · linarith
            · norm_num at hev
          have hd : ⌊6 * f⌋ = (2 : ℤ) :=
            Int.floor_eq_iff.mpr ⟨by push_cast; linarith, by push_cast; linarith⟩
          have hr1 : ¬ f - ((2 : ℤ) : ℚ) / 6 < (((2 : ℤ) : ℚ) + 1) / 6 - f := by
            push_cast; exact not_lt.mpr (by linarith)
          have hr2 : ¬ (((2 : ℤ) : ℚ) + 1) / 6 - f < f - ((2 : ℤ) : ℚ) / 6 := by
            push_cast; exact not_lt.mpr (by linarith)
          simp only [getLastFractDigit, and_true, if_neg hne3, if_pos h3, ew, if_neg hcond,
            specLastDigitRule, hd, if_neg hr1, if_neg hr2,
            if_pos (show (2 : ℤ) % 2 = 0 by decide)]
          decide
        · -- f ∈ (5/12, 1/2): both sides pick 3
          have hcond : ((3 : ℕ) : ℚ) / 6 - f < f - ((2 : ℕ) : ℚ) / 6 ∨
              (((3 : ℕ) : ℚ) / 6 - f = f - ((2 : ℕ) : ℚ) / 6 ∧ (3 : ℕ) % 2 = 0) :=
            Or.inl (by push_cast; linarith)
          have hd : ⌊6 * f⌋ = (2 : ℤ) :=
            Int.floor_eq_iff.mpr ⟨by push_cast; linarith, by push_cast; linarith⟩
          have hr1 : ¬ f - ((2 : ℤ) : ℚ) / 6 < (((2 : ℤ) : ℚ) + 1) / 6 - f := by
            push_cast; exact not_lt.mpr (by linarith)
          have hr2 : (((2 : ℤ) : ℚ) + 1) / 6 - f < f - ((2 : ℤ) : ℚ) / 6 := by
            push_cast; linarith
          simp only [getLastFractDigit, and_true, if_neg hne3, if_pos h3, ew, if_pos hcond,
            specLastDigitRule, hd, if_neg hr1, if_pos hr2]
          decide

/-- Claim C8 (counterexample): at the remaining fraction `11/12`, exactly
halfway between the bracketing candidates 5 and 6, the claimed
round-half-to-even rule selects the even digit 6, but the code emits `'5'`:
the walk never considers a digit above 5. -/
theorem c8_counterexample_tie_at_six :
    specLastDigitRule (11 / 12) = 6 ∧
    getLastFractDigit (11 / 12) = digitChar 5 ∧
    getLastFractDigit (11 / 12) ≠ digitChar (specLastDigitRule (11 / 12)).toNat := by
  refine ⟨by with_unfolding_all decide, by with_unfolding_all decide,
    by with_unfolding_all decide⟩

/-- Witness for the amended rounding rule at the concrete fraction `1/4`, a
tie between the digits 1 and 2 that resolves to the even digit 2. -/
theorem c8_rounding_rule_witness :
    (0 : ℚ) ≤ 1 / 4 ∧ (1 / 4 : ℚ) < 1 ∧
    getLastFractDigit (1 / 4) = digitChar (min (specLastDigitRule (1 / 4)).toNat 5) :=
  ⟨by norm_num, by norm_num, c8_rounding_rule_capped (1 / 4) (by norm_num) (by norm_num)⟩
